import Mathlib

/-!
Verification development for the jwst_novt repository (JWST NIRSpec
Observation Visualization Tool).

The repository is a thin glue layer over external astronomy libraries.  Its
own logic that is visible in the sources consists of

* the DS9 region style-patch step in the `novt_interact` notebook, which
  post-processes serialized region text with Python `str.replace`, appending
  `color=... point=...` attributes after each group tag;
* the position-angle wrap `(x + 360) % 360` in the `novt_tools` notebook;
* calls into the `jwst_novt.footprints` / `jwst_novt.timeline` modules
  (the modules themselves are not part of the sources available here, so
  they are modelled from the specification where a claim needs them).

The development embeds the string-rewriting step faithfully (Python
`str.replace` semantics over `List Char`), models the remaining operations,
and proves the frozen claims about them.
-/

/-! ## Embedding of Python `str.replace` -/

/-- Fueled form of Python `text.replace(q, r)` over character lists.
`pyReplaceF q r n t` scans `t` left to right: wherever the (nonempty)
pattern `q` is a prefix of the remaining text it emits `r` and skips the
matched pattern; otherwise it copies one character.  The fuel `n` only
bounds the recursion depth and is always instantiated with `t.length`. -/
def pyReplaceF (q r : List Char) : Nat → List Char → List Char
  | 0, t => t
  | n + 1, t =>
    match t with
    | [] => []
    | c :: rest =>
      if q <+: (c :: rest) ∧ q ≠ [] then
        r ++ pyReplaceF q r n ((c :: rest).drop q.length)
      else
        c :: pyReplaceF q r n rest

/-- Embedding of Python `text.replace(q, r)` (non-overlapping, left to
right, matches are not rescanned), as used by the notebook's style patch.
The unused `q = []` case of Python is not modelled (the notebook's patterns
are the nonempty tag labels). -/
def pyReplace (q r t : List Char) : List Char := pyReplaceF q r t.length t

/-- Tag label text for a named group, `"tag={name}"`, as written by the
f-string in the `novt_interact` notebook. -/
def tagText (name : String) : String := "tag=\x7b" ++ name ++ "\x7d"

/-- Character-list form of the tag label of a named group. -/
def nvTag (name : String) : List Char := (tagText name).data

/-- Character-list form of the appended style attributes
`" color=<value> point=<marker>"`. -/
def nvAttr (color marker : String) : List Char :=
  " color=".data ++ (color.data ++ (" point=".data ++ marker.data))

/-- One iteration of the notebook's style-patch loop: for a group
`(inst, value, marker)` it runs
`region_text.replace(f"tag={{{inst}}}", f"tag={{{inst}}} color={value} point={marker}")`. -/
def patchStep (t : List Char) (g : String × String × String) : List Char :=
  pyReplace (tagText g.1).data
    (tagText g.1 ++ " color=" ++ g.2.1 ++ " point=" ++ g.2.2).data t

/-- Style configuration of the notebook: the `colors` and `markers` dicts,
in their insertion order.  The color values come from widget controls and
are parameters; the group names and point markers are fixed. -/
def novtStyles (nirspecColor nircamShortColor nircamLongColor
    primaryColor fillerColor : String) : List (String × String × String) :=
  [("NIRSpec", nirspecColor, "cross"),
   ("NIRCam Short", nircamShortColor, "cross"),
   ("NIRCam Long", nircamLongColor, "cross"),
   ("primary", primaryColor, "circle"),
   ("filler", fillerColor, "circle")]

/-- The notebook's style-patch loop over the serialized region text:
`for inst, value in colors.items(): region_text = region_text.replace(...)`. -/
def patchRegionText (styles : List (String × String × String))
    (t : List Char) : List Char :=
  styles.foldl patchStep t

/-- Fueled spec-side scanner: find each occurrence of the tag label `p` and
append the attribute text `a` immediately after it, leaving all other
characters unchanged. -/
def appendAfterTagsF (p a : List Char) : Nat → List Char → List Char
  | 0, t => t
  | n + 1, t =>
    match t with
    | [] => []
    | c :: rest =>
      if p <+: (c :: rest) ∧ p ≠ [] then
        p ++ a ++ appendAfterTagsF p a n ((c :: rest).drop p.length)
      else
        c :: appendAfterTagsF p a n rest

/-- Spec-side description of one style-patch pass (this is the description
given by the spec of what the find/replace step does: find each occurrence
of the group's tag label and append the `color=... point=...` attributes
immediately after it). -/
def appendAfterTags (p a t : List Char) : List Char :=
  appendAfterTagsF p a t.length t

/-- Spec-side description of the whole style-patch step: one
append-after-tags pass per configured group, in configuration order. -/
def specPatch (styles : List (String × String × String))
    (t : List Char) : List Char :=
  styles.foldl (fun s g => appendAfterTags (nvTag g.1) (nvAttr g.2.1 g.2.2) s) t

/-- Non-interference condition used for the preservation lemmas: no match
of the pattern `q` can begin strictly inside an occurrence of `p` (neither
fitting inside `p` nor spanning out of it). -/
def CantMatchWithin (q p : List Char) : Prop :=
  ∀ k, k < p.length → ¬ q <+: p.drop k ∧ ¬ p.drop k <+: q

instance (q p : List Char) : Decidable (CantMatchWithin q p) := by
  unfold CantMatchWithin
  infer_instance

/-- Bundle of decidable side conditions about a pass pattern `nvTag nj`
against a target group with name `ni` and point marker `mi`: the two tag
labels cannot match inside one another, and the pass pattern cannot match
inside the fixed parts of the target group's appended attribute text.  All
components are concrete once the group names and marker are fixed. -/
def TagPairOk (nj ni mi : String) : Prop :=
  CantMatchWithin (nvTag nj) (nvTag ni)
  ∧ CantMatchWithin (nvTag ni) (nvTag nj)
  ∧ (nvTag nj).length < " color=".data.length + " point=".data.length + mi.data.length
  ∧ '\x7b' ∈ nvTag nj
  ∧ '\x7b' ∉ mi.data
  ∧ ¬ (" point=".data ++ mi.data) <:+: nvTag nj
  ∧ (∀ k, k < " color=".data.length → ¬ (" color=".data.drop k) <+: nvTag nj)
  ∧ (∀ k, k < " point=".data.length → ¬ ((" point=".data.drop k) ++ mi.data) <+: nvTag nj)
  ∧ (∀ k, k < mi.data.length → ¬ (mi.data.drop k) <+: nvTag nj)
  ∧ (nvTag nj).length <
      (nvTag ni).length + " color=".data.length + " point=".data.length + mi.data.length
  ∧ (∀ k, k < (nvTag nj).length → ¬ (nvTag nj).drop k <+: nvTag ni)
  ∧ ¬ nvTag ni <:+: nvTag nj

instance (nj ni mi : String) : Decidable (TagPairOk nj ni mi) := by
  unfold TagPairOk
  infer_instance


/-! ## DS9 region serialization model -/

/-- Modelled from the spec: the Region Exporter's serializer (the wrapped
astropy regions library) is not under the available sources; the notebooks
only call `regions.write` / `regions.serialize`.  A serialized region entry
is modelled as a shape with coordinate text and a group tag. -/
structure Ds9Region where
  shape : String
  coords : String
  tag : String
deriving DecidableEq

/-- Modelled from the spec: one serialized region entry, in DS9 style
`shape(coords) # tag={group}`. -/
def renderRegion (r : Ds9Region) : List Char :=
  (r.shape ++ "(" ++ r.coords ++ ") # tag=\x7b" ++ r.tag ++ "\x7d").data

/-- Modelled from the spec: the fixed header lines of a DS9 region file. -/
def ds9HeaderLines : List (List Char) :=
  ["# Region file format: DS9 astropy/regions".data, "icrs".data]

/-- Join lines with a terminating newline after each line. -/
def joinLines : List (List Char) → List Char
  | [] => []
  | l :: ls => l ++ '\n' :: joinLines ls

/-- Modelled from the spec: serializing a region collection writes the
header lines followed by one entry per region, in collection order. -/
def serializeRegions (rs : List Ds9Region) : List Char :=
  joinLines (ds9HeaderLines ++ rs.map renderRegion)

/-- Split a character stream at newline characters (the result is never
empty, so prepending to the head segment is total). -/
def splitOnNl : List Char → List (List Char)
  | [] => [[]]
  | c :: rest =>
    if c = '\n' then [] :: splitOnNl rest
    else (c :: (splitOnNl rest).headD []) :: (splitOnNl rest).tail

/-! ## Source catalog model -/

/-- Flag column value of a catalog row: primary or filler. -/
inductive SrcFlag
  | P
  | F
deriving DecidableEq

/-- Catalog row: RA and Dec in degrees with an optional P/F flag
(coordinates are modelled as exact rationals). -/
structure CatalogRow where
  ra : ℚ
  dec : ℚ
  flag : Option SrcFlag
deriving DecidableEq

/-- Sky region objects produced by the footprint functions: sky polygons
for apertures and points for aperture centers and catalog sources. -/
inductive FpRegion
  | poly (vertices : List (ℚ × ℚ))
  | point (center : ℚ × ℚ)
deriving DecidableEq

/-- Modelled from the spec: `jwst_novt.footprints.source_catalog` is not
under the available sources (the notebook only calls it).  Per the spec it
reads the catalog rows into point regions split by flag: rows flagged P
yield the primary collection, rows flagged F the filler collection, each
point carrying the row's RA/Dec. -/
def source_catalog (rows : List CatalogRow) : List FpRegion × List FpRegion :=
  (rows.filter (fun r => r.flag == some SrcFlag.P)
     |>.map (fun r => FpRegion.point (r.ra, r.dec)),
   rows.filter (fun r => r.flag == some SrcFlag.F)
     |>.map (fun r => FpRegion.point (r.ra, r.dec)))

/-! ## Visibility timeline model -/

/-- Position-angle data the ephemeris/visibility library reports for one
observable date: the V3 position angle and min/max position angles per
instrument. -/
structure PAInfo where
  v3 : ℚ
  nrsMin : ℚ
  nrsMax : ℚ
  nrcMin : ℚ
  nrcMax : ℚ
deriving DecidableEq

/-- One row of the timeline dataframe: a timestamp (day index) and the
angle columns, where `none` models a NaN cell. -/
structure TimelineRow where
  time : Nat
  v3pa : Option ℚ
  nirspec_min_pa : Option ℚ
  nirspec_max_pa : Option ℚ
  nircam_min_pa : Option ℚ
  nircam_max_pa : Option ℚ
deriving DecidableEq

/-- Modelled from the spec: `jwst_novt.timeline.timeline` is not under the
available sources (the notebook only calls `tl.timeline`).  Per the spec it
asks the ephemeris/visibility library (`eph`, an oracle parameter) for the
position angles valid at each date of the requested range and produces a
time-indexed table with NaN-filled gaps for unobservable dates. -/
def timeline (eph : Nat → Option PAInfo) (startDay nDays : Nat) :
    List TimelineRow :=
  (List.range nDays).map fun d =>
    match eph (startDay + d) with
    | none =>
        { time := startDay + d, v3pa := none, nirspec_min_pa := none,
          nirspec_max_pa := none, nircam_min_pa := none, nircam_max_pa := none }
    | some i =>
        { time := startDay + d, v3pa := some i.v3,
          nirspec_min_pa := some i.nrsMin, nirspec_max_pa := some i.nrsMax,
          nircam_min_pa := some i.nrcMin, nircam_max_pa := some i.nrcMax }

/-! ## Footprint model -/

/-- Modelled from the spec: transform of an aperture vertex onto the sky at
the target position: the per-aperture dither/mosaic offset is applied, the
result is rotated by the position angle (`rot`, the rotation family that
the aperture-geometry library provides) and placed at the target RA/Dec. -/
def transformVertex (rot : ℚ → ℚ × ℚ → ℚ × ℚ) (ra dec pa : ℚ)
    (offset : ℚ × ℚ) (v : ℚ × ℚ) : ℚ × ℚ :=
  ((rot pa (v.1 + offset.1, v.2 + offset.2)).1 + ra,
   (rot pa (v.1 + offset.1, v.2 + offset.2)).2 + dec)

/-- Modelled from the spec: `jwst_novt.footprints.nirspec_footprint` is not
under the available sources (the notebook only calls it).  Per the spec it
asks the aperture-geometry library (`siaf`, an oracle parameter) for the
polygon vertices of the named apertures, applies the coordinate transforms,
and returns one sky-polygon region per requested aperture, preceded by the
aperture center point when requested. -/
def nirspec_footprint (rot : ℚ → ℚ × ℚ → ℚ × ℚ)
    (siaf : String → List (ℚ × ℚ)) (ra dec pa : ℚ) (include_center : Bool)
    (apertures : List String) : List FpRegion :=
  (if include_center then [FpRegion.point (ra, dec)] else [])
    ++ apertures.map fun ap =>
        FpRegion.poly ((siaf ap).map (transformVertex rot ra dec pa (0, 0)))

/-- Modelled from the spec: `jwst_novt.footprints.nircam_dither_footprint`
is not under the available sources (the notebook only calls it).  Per the
spec it computes the NIRCam aperture regions with a dither pattern applied
(`dithers`, the offsets of the chosen pattern) and/or offsets for a
two-tile mosaic, producing one polygon per mosaic tile, dither position and
aperture. -/
def nircam_dither_footprint (rot : ℚ → ℚ × ℚ → ℚ × ℚ)
    (siaf : String → List (ℚ × ℚ)) (ra dec pa : ℚ) (include_center : Bool)
    (apertures : List String) (dithers : List (ℚ × ℚ)) (add_mosaic : Bool)
    (mosaic_offset : ℚ × ℚ) : List FpRegion :=
  (if include_center then [FpRegion.point (ra, dec)] else [])
    ++ (if add_mosaic then
          [(mosaic_offset.1, mosaic_offset.2),
           (-mosaic_offset.1, -mosaic_offset.2)]
        else [((0 : ℚ), (0 : ℚ))]).flatMap fun toff =>
        dithers.flatMap fun doff =>
          apertures.map fun ap =>
            FpRegion.poly ((siaf ap).map
              (transformVertex rot ra dec pa (toff.1 + doff.1, toff.2 + doff.2)))

/-! ## Error propagation model -/

/-- Modelled from the spec: the timeline operation with a fallible
ephemeris query; the repository code performs no recovery or retry, it
simply uses the result. -/
def timelineE (fetch : Except String (Nat → Option PAInfo))
    (startDay nDays : Nat) : Except String (List TimelineRow) := do
  let eph ← fetch
  pure (timeline eph startDay nDays)

/-- Modelled from the spec: the catalog reader with fallible row parsing:
rows are parsed by the wrapped table reader and the collection is split by
flag; a malformed row's error is not handled by the repository code. -/
def source_catalogE (parse : String → Except String CatalogRow)
    (rows : List String) : Except String (List FpRegion × List FpRegion) := do
  let parsed ← rows.mapM parse
  pure (source_catalog parsed)

/-- Modelled from the spec: the footprint builder with a fallible aperture
lookup (an invalid aperture name raises in the wrapped library); the
repository code performs no validation of its own. -/
def nirspec_footprintE (rot : ℚ → ℚ × ℚ → ℚ × ℚ)
    (siaf : String → Except String (List (ℚ × ℚ))) (ra dec pa : ℚ)
    (include_center : Bool) (apertures : List String) :
    Except String (List FpRegion) := do
  let polys ← apertures.mapM siaf
  pure ((if include_center then [FpRegion.point (ra, dec)] else [])
    ++ polys.map fun vs =>
        FpRegion.poly (vs.map (transformVertex rot ra dec pa (0, 0))))

/-! ## Position-angle wrap (novt_tools notebook) -/

/-- Python's modulo for rationals with the sign convention of the divisor
(for a positive divisor the result lies in `[0, b)`), used to embed the
float expression `x % 360`. -/
def pymod (a b : ℚ) : ℚ := a - b * ⌊a / b⌋

/-- Embedding of the notebook's wrap of the circular-mean position angle:
`nircam_avg_pa = (nircam_avg.value + 360) % 360`. -/
def nircam_avg_pa (nircam_avg : ℚ) : ℚ := pymod (nircam_avg + 360) 360

/-! ## Fuel elimination and unfolding equations -/

theorem pyReplaceF_fuel (q r : List Char) :
    ∀ (n m : Nat) (t : List Char), t.length ≤ n → t.length ≤ m →
      pyReplaceF q r n t = pyReplaceF q r m t := by
  intro n
  induction n with
  | zero =>
    intro m t hn _
    interval_cases ht : t.length
    · rw [List.length_eq_zero] at ht
      subst ht
      cases m <;> rfl
  | succ n ih =>
    intro m t hn hm
    cases t with
    | nil => cases m <;> rfl
    | cons c rest =>
      cases m with
      | zero => simp at hm
      | succ m =>
        simp only [pyReplaceF]
        by_cases hcond : (q <+: (c :: rest) ∧ q ≠ [])
        · rw [if_pos hcond, if_pos hcond]
          have hq1 : 1 ≤ q.length := by
            have := List.length_pos.mpr hcond.2
            omega
          have hlen : ((c :: rest).drop q.length).length ≤ n := by
            simp only [List.length_drop, List.length_cons] at *
            omega
          have hlen2 : ((c :: rest).drop q.length).length ≤ m := by
            simp only [List.length_drop, List.length_cons] at *
            omega
          rw [ih _ _ hlen hlen2]
        · rw [if_neg hcond, if_neg hcond]
          have h1 : rest.length ≤ n := by
            simp only [List.length_cons] at hn
            omega
          have h2 : rest.length ≤ m := by
            simp only [List.length_cons] at hm
            omega
          rw [ih _ _ h1 h2]

theorem pyReplace_nil (q r : List Char) : pyReplace q r [] = [] := rfl

theorem pyReplace_pos (q r t : List Char) (hq : q ≠ []) (h : q <+: t) :
    pyReplace q r t = r ++ pyReplace q r (t.drop q.length) := by
  cases t with
  | nil =>
    rw [List.prefix_nil] at h
    exact absurd h hq
  | cons c rest =>
    show pyReplaceF q r (rest.length + 1) (c :: rest) = _
    simp only [pyReplaceF]
    rw [if_pos ⟨h, hq⟩]
    congr 1
    apply pyReplaceF_fuel
    · have hq1 : 1 ≤ q.length := by
        have := List.length_pos.mpr hq
        omega
      simp only [List.length_drop, List.length_cons]
      omega
    · exact le_refl _

theorem pyReplace_neg (q r : List Char) (c : Char) (rest : List Char)
    (h : ¬ q <+: (c :: rest)) :
    pyReplace q r (c :: rest) = c :: pyReplace q r rest := by
  show pyReplaceF q r (rest.length + 1) (c :: rest) = _
  simp only [pyReplaceF]
  rw [if_neg (fun hc => h hc.1)]
  rfl

theorem appendAfterTagsF_fuel (p a : List Char) :
    ∀ (n m : Nat) (t : List Char), t.length ≤ n → t.length ≤ m →
      appendAfterTagsF p a n t = appendAfterTagsF p a m t := by
  intro n
  induction n with
  | zero =>
    intro m t hn _
    interval_cases ht : t.length
    · rw [List.length_eq_zero] at ht
      subst ht
      cases m <;> rfl
  | succ n ih =>
    intro m t hn hm
    cases t with
    | nil => cases m <;> rfl
    | cons c rest =>
      cases m with
      | zero => simp at hm
      | succ m =>
        simp only [appendAfterTagsF]
        by_cases hcond : (p <+: (c :: rest) ∧ p ≠ [])
        · rw [if_pos hcond, if_pos hcond]
          have hq1 : 1 ≤ p.length := by
            have := List.length_pos.mpr hcond.2
            omega
          have hlen : ((c :: rest).drop p.length).length ≤ n := by
            simp only [List.length_drop, List.length_cons] at *
            omega
          have hlen2 : ((c :: rest).drop p.length).length ≤ m := by
            simp only [List.length_drop, List.length_cons] at *
            omega
          rw [ih _ _ hlen hlen2]
        · rw [if_neg hcond, if_neg hcond]
          have h1 : rest.length ≤ n := by
            simp only [List.length_cons] at hn
            omega
          have h2 : rest.length ≤ m := by
            simp only [List.length_cons] at hm
            omega
          rw [ih _ _ h1 h2]

theorem appendAfterTags_nil (p a : List Char) : appendAfterTags p a [] = [] := rfl

theorem appendAfterTags_pos (p a t : List Char) (hp : p ≠ []) (h : p <+: t) :
    appendAfterTags p a t = p ++ a ++ appendAfterTags p a (t.drop p.length) := by
  cases t with
  | nil =>
    rw [List.prefix_nil] at h
    exact absurd h hp
  | cons c rest =>
    show appendAfterTagsF p a (rest.length + 1) (c :: rest) = _
    simp only [appendAfterTagsF]
    rw [if_pos ⟨h, hp⟩]
    congr 1
    apply appendAfterTagsF_fuel
    · have hq1 : 1 ≤ p.length := by
        have := List.length_pos.mpr hp
        omega
      simp only [List.length_drop, List.length_cons]
      omega
    · exact le_refl _

theorem appendAfterTags_neg (p a : List Char) (c : Char) (rest : List Char)
    (h : ¬ p <+: (c :: rest)) :
    appendAfterTags p a (c :: rest) = c :: appendAfterTags p a rest := by
  show appendAfterTagsF p a (rest.length + 1) (c :: rest) = _
  simp only [appendAfterTagsF]
  rw [if_neg (fun hc => h hc.1)]
  rfl

/-! ## Helper conversions between prefix, suffix and infix -/

theorem pre_to_inf {l t : List Char} (h : l <+: t) : l <:+: t := by
  obtain ⟨w, rfl⟩ := h
  exact ⟨[], w, rfl⟩

theorem suf_to_inf {l t : List Char} (h : l <:+ t) : l <:+: t := by
  obtain ⟨s, rfl⟩ := h
  exact ⟨s, [], by simp⟩

/-! ## Core lemmas about one replace pass -/

theorem pyReplaceF_eq_appendAfterTagsF (p a : List Char) :
    ∀ n t, pyReplaceF p (p ++ a) n t = appendAfterTagsF p a n t := by
  intro n
  induction n with
  | zero => intro t; rfl
  | succ n ih =>
    intro t
    cases t with
    | nil => rfl
    | cons c rest =>
      simp only [pyReplaceF, appendAfterTagsF]
      by_cases h : (p <+: (c :: rest) ∧ p ≠ [])
      · rw [if_pos h, if_pos h, ih, List.append_assoc]
      · rw [if_neg h, if_neg h, ih]

/-- One pass of the notebook's replace, whose replacement text is the
pattern followed by the attributes, is exactly the spec-side
append-attributes-after-each-tag scan. -/
theorem pyReplace_eq_appendAfterTags (p a t : List Char) :
    pyReplace p (p ++ a) t = appendAfterTags p a t :=
  pyReplaceF_eq_appendAfterTagsF p a t.length t

/-- A pass whose pattern does not occur in the text leaves the text
byte-for-byte unchanged. -/
theorem pyReplace_no_occurrence (q r : List Char) :
    ∀ t, ¬ q <:+: t → pyReplace q r t = t := by
  intro t
  induction t with
  | nil => intro _; rfl
  | cons c rest ih =>
    intro h
    have hpre : ¬ q <+: (c :: rest) := fun hp => h (pre_to_inf hp)
    rw [pyReplace_neg _ _ _ _ hpre]
    rw [ih (fun hr => h (List.infix_cons hr))]

/-- Degenerate empty pattern: the guard always fails and the text is
returned unchanged (Python's behaviour for an empty pattern differs, but
the notebook never uses one). -/
theorem pyReplace_empty_pat (r : List Char) : ∀ t, pyReplace [] r t = t := by
  intro t
  induction t with
  | nil => rfl
  | cons c rest ih =>
    show pyReplaceF [] r (rest.length + 1) (c :: rest) = _
    simp only [pyReplaceF]
    rw [if_neg (fun hc => hc.2 rfl)]
    rw [show pyReplaceF [] r rest.length rest = pyReplace [] r rest from rfl, ih]

/-- The original text is a sublist of the output of a replace pass whose
replacement extends the pattern: such a pass only inserts, never deletes or
alters characters of the input. -/
theorem sublist_pyReplace (q a : List Char) :
    ∀ n t, t.length ≤ n → List.Sublist t (pyReplace q (q ++ a) t) := by
  intro n
  induction n with
  | zero =>
    intro t ht
    have : t = [] := List.length_eq_zero.mp (Nat.le_zero.mp ht)
    subst this
    exact List.nil_sublist _
  | succ n ih =>
    intro t ht
    cases t with
    | nil => exact List.nil_sublist _
    | cons c rest =>
      by_cases hq : q <+: (c :: rest) ∧ q ≠ []
      · rw [pyReplace_pos _ _ _ hq.2 hq.1]
        obtain ⟨w, hw⟩ := hq.1
        have hdrop : (c :: rest).drop q.length = w := by
          rw [← hw, List.drop_left]
        have hwlen : w.length ≤ n := by
          have h1 : 1 ≤ q.length := by
            have := List.length_pos.mpr hq.2
            omega
          have := congrArg List.length hw
          simp only [List.length_append, List.length_cons] at this ht
          omega
        have hsub : List.Sublist w (pyReplace q (q ++ a) w) := ih w hwlen
        rw [hdrop, ← hw, List.append_assoc]
        apply List.Sublist.append_left
        exact hsub.trans (List.sublist_append_right a _)
      · rcases eq_or_ne q [] with rfl | hqne
        · rw [pyReplace_empty_pat]
        · have hpre : ¬ q <+: (c :: rest) := fun hp => hq ⟨hp, hqne⟩
          rw [pyReplace_neg _ _ _ _ hpre]
          have hrlen : rest.length ≤ n := by
            simp only [List.length_cons] at ht
            omega
          exact List.Sublist.cons₂ c (ih rest hrlen)

/-- Window lemma: if `p` is a prefix of the text and no match of `q` starts
within the first `p.length` positions, the pass copies `p` verbatim and
continues after it. -/
theorem pyReplace_window (q r : List Char) :
    ∀ (p t : List Char), p <+: t →
      (∀ k, k < p.length → ¬ q <+: t.drop k) →
      pyReplace q r t = p ++ pyReplace q r (t.drop p.length) := by
  intro p
  induction p with
  | nil => intro t _ _; simp
  | cons b p' ih =>
    intro t hp hwin
    obtain ⟨w, hw⟩ := hp
    have ht : t = b :: (p' ++ w) := by rw [← hw]; rfl
    subst ht
    have h0 : ¬ q <+: b :: (p' ++ w) := by
      have := hwin 0 (by simp)
      simpa using this
    rw [pyReplace_neg _ _ _ _ h0]
    have hp' : p' <+: p' ++ w := List.prefix_append _ _
    have hwin' : ∀ k, k < p'.length → ¬ q <+: (p' ++ w).drop k := by
      intro k hk
      have := hwin (k + 1) (by simp only [List.length_cons]; omega)
      simpa using this
    rw [ih (p' ++ w) hp' hwin']
    simp [List.drop_left]

/-- Establishment: if the tag occurs in the text, then after the pass for
that tag the tag immediately followed by its attributes occurs in the
output. -/
theorem estab_attr (p a : List Char) (hp : p ≠ []) :
    ∀ n t, t.length ≤ n → p <:+: t → (p ++ a) <:+: pyReplace p (p ++ a) t := by
  intro n
  induction n with
  | zero =>
    intro t ht hinf
    have hte : t = [] := List.length_eq_zero.mp (Nat.le_zero.mp ht)
    subst hte
    rw [List.infix_nil] at hinf
    exact absurd hinf hp
  | succ n ih =>
    intro t ht hinf
    cases t with
    | nil =>
      rw [List.infix_nil] at hinf
      exact absurd hinf hp
    | cons c rest =>
      by_cases hpre : p <+: (c :: rest)
      · rw [pyReplace_pos _ _ _ hp hpre]
        exact pre_to_inf (List.prefix_append _ _)
      · rw [pyReplace_neg _ _ _ _ hpre]
        rcases List.infix_cons_iff.mp hinf with h | h
        · exact absurd h hpre
        · have hrl : rest.length ≤ n := by
            simp only [List.length_cons] at ht
            omega
          exact List.infix_cons (ih rest hrl h)

/-- Preservation: a pass for pattern `q` preserves any occurrence of `p`,
provided no `q` match can start inside an occurrence of `p` and no `p`
occurrence can start inside a `q` match. -/
theorem infix_preserved (q p r : List Char) (hq : q ≠ [])
    (h1 : CantMatchWithin q p) (h2 : CantMatchWithin p q) :
    ∀ n t, t.length ≤ n → p <:+: t → p <:+: pyReplace q r t := by
  rcases eq_or_ne p [] with rfl | hp
  · intro n t _ _
    exact List.nil_infix
  intro n
  induction n with
  | zero =>
    intro t ht hinf
    have hte : t = [] := List.length_eq_zero.mp (Nat.le_zero.mp ht)
    subst hte
    rw [pyReplace_nil]
    exact hinf
  | succ n ih =>
    intro t ht hinf
    cases t with
    | nil =>
      rw [pyReplace_nil]
      exact hinf
    | cons c rest =>
      by_cases hqc : q <+: (c :: rest)
      · rw [pyReplace_pos _ _ _ hq hqc]
        obtain ⟨u, v, huv⟩ := hinf
        by_cases hk : q.length ≤ u.length
        · have hdrop : p <:+: (c :: rest).drop q.length := by
            rw [← huv, List.append_assoc, List.drop_append_eq_append_drop,
              Nat.sub_eq_zero_of_le hk, List.drop_zero]
            exact ⟨u.drop q.length, v, by rw [List.append_assoc]⟩
          have hlen : ((c :: rest).drop q.length).length ≤ n := by
            have h1q : 1 ≤ q.length := by
              have := List.length_pos.mpr hq
              omega
            simp only [List.length_drop, List.length_cons] at *
            omega
          exact List.IsInfix.trans (ih _ hlen hdrop) (suf_to_inf ⟨r, rfl⟩)
        · exfalso
          push_neg at hk
          have hpv : p <+: (c :: rest).drop u.length := by
            rw [← huv, List.append_assoc, List.drop_append_eq_append_drop,
              List.drop_length, Nat.sub_self, List.drop_zero, List.nil_append]
            exact List.prefix_append _ _
          have hqd : q.drop u.length <+: (c :: rest).drop u.length := by
            obtain ⟨w, hw⟩ := hqc
            rw [← hw, List.drop_append_eq_append_drop,
              Nat.sub_eq_zero_of_le (le_of_lt hk), List.drop_zero]
            exact List.prefix_append _ _
          rcases List.prefix_or_prefix_of_prefix hpv hqd with hcase | hcase
          · exact (h2 u.length hk).1 hcase
          · exact (h2 u.length hk).2 hcase
      · rcases List.infix_cons_iff.mp hinf with hpre | hrest
        · have hwin : ∀ k, k < p.length → ¬ q <+: (c :: rest).drop k := by
            intro k hkp hqk
            have hpk : p.drop k <+: (c :: rest).drop k := by
              obtain ⟨w, hw⟩ := hpre
              rw [← hw, List.drop_append_eq_append_drop,
                Nat.sub_eq_zero_of_le (le_of_lt hkp), List.drop_zero]
              exact List.prefix_append _ _
            rcases List.prefix_or_prefix_of_prefix hqk hpk with hcase | hcase
            · exact (h1 k hkp).1 hcase
            · exact (h1 k hkp).2 hcase
          rw [pyReplace_window q r p (c :: rest) hpre hwin]
          exact pre_to_inf (List.prefix_append _ _)
        · have hrl : rest.length ≤ n := by
            simp only [List.length_cons] at ht
            omega
          rw [pyReplace_neg _ _ _ _ hqc]
          exact List.infix_cons (ih rest hrl hrest)

/-! ## Overlap analysis for the configured tags and attributes -/

theorem pre_of_append_left {x u v : List Char} (h : x <+: u ++ v)
    (hl : x.length ≤ u.length) : x <+: u :=
  List.prefix_of_prefix_length_le h (List.prefix_append u v) hl

theorem pre_of_append_head {u v q : List Char}
    (h : (u ++ v) <+: q) : u <+: q :=
  List.IsPrefix.trans (List.prefix_append u v) h

theorem infix_of_prefix_drop {x q : List Char} {k : Nat}
    (h : x <+: q.drop k) : x <:+: q :=
  List.IsInfix.trans (pre_to_inf h) (suf_to_inf (List.drop_suffix k q))

/-- A pattern `q` that contains an opening brace cannot match anywhere
inside `p ++ attributes` when `q` cannot match inside the tag `p` and the
attribute text is brace-free: matching inside the attribute part would put
a brace into the brace-free attribute text, and the fixed attribute
fragments cannot begin a match that spans out of the occurrence either. -/
theorem cma_tag_into_attr (q p c m co po : List Char)
    (hlen : q.length < co.length + po.length + m.length)
    (hqp1 : ∀ k, k < p.length → ¬ q <+: p.drop k)
    (hqp2 : ∀ k, k < p.length → ¬ p.drop k <+: q)
    (hbq : '\x7b' ∈ q)
    (hbco : '\x7b' ∉ co) (hbpo : '\x7b' ∉ po)
    (hbc : '\x7b' ∉ c) (hbm : '\x7b' ∉ m)
    (hpmq : ¬ (po ++ m) <:+: q)
    (hcoq : ∀ k, k < co.length → ¬ (co.drop k) <+: q)
    (hpoq : ∀ k, k < po.length → ¬ ((po.drop k) ++ m) <+: q)
    (hmq : ∀ k, k < m.length → ¬ (m.drop k) <+: q) :
    CantMatchWithin q (p ++ (co ++ (c ++ (po ++ m)))) := by
  intro k hk
  by_cases hkp : k < p.length
  · have hdropP : (p ++ (co ++ (c ++ (po ++ m)))).drop k
        = p.drop k ++ (co ++ (c ++ (po ++ m))) := by
      rw [List.drop_append_eq_append_drop, Nat.sub_eq_zero_of_le (le_of_lt hkp),
        List.drop_zero]
    rw [hdropP]
    constructor
    · intro hq'
      by_cases hlq : q.length ≤ (p.drop k).length
      · exact hqp1 k hkp (pre_of_append_left hq' hlq)
      · push_neg at hlq
        exact hqp2 k hkp
          (List.prefix_of_prefix_length_le (List.prefix_append _ _) hq' (le_of_lt hlq))
    · intro hq'
      have hle := List.IsPrefix.length_le hq'
      simp only [List.length_append, List.length_drop] at hle
      omega
  · push_neg at hkp
    have hdropP : (p ++ (co ++ (c ++ (po ++ m)))).drop k
        = (co ++ (c ++ (po ++ m))).drop (k - p.length) := by
      rw [List.drop_append_eq_append_drop, List.drop_eq_nil_of_le hkp, List.nil_append]
    rw [hdropP]
    constructor
    · intro hq'
      have hinf : q <:+: (co ++ (c ++ (po ++ m))) := infix_of_prefix_drop hq'
      have hmem : '\x7b' ∈ (co ++ (c ++ (po ++ m))) :=
        List.Sublist.mem hbq hinf.sublist
      simp only [List.mem_append] at hmem
      rcases hmem with h | h | h | h
      · exact hbco h
      · exact hbc h
      · exact hbpo h
      · exact hbm h
    · intro hq'
      have hk1lt : k - p.length < co.length + (c.length + (po.length + m.length)) := by
        simp only [List.length_append] at hk
        omega
      by_cases hco : k - p.length < co.length
      · have hdrop2 : (co ++ (c ++ (po ++ m))).drop (k - p.length)
            = co.drop (k - p.length) ++ (c ++ (po ++ m)) := by
          rw [List.drop_append_eq_append_drop, Nat.sub_eq_zero_of_le (le_of_lt hco),
            List.drop_zero]
        rw [hdrop2] at hq'
        exact hcoq _ hco (pre_of_append_head hq')
      · push_neg at hco
        have hdrop2 : (co ++ (c ++ (po ++ m))).drop (k - p.length)
            = (c ++ (po ++ m)).drop (k - p.length - co.length) := by
          rw [List.drop_append_eq_append_drop, List.drop_eq_nil_of_le hco,
            List.nil_append]
        rw [hdrop2] at hq'
        by_cases hcc : k - p.length - co.length < c.length
        · have hdrop3 : (c ++ (po ++ m)).drop (k - p.length - co.length)
              = c.drop (k - p.length - co.length) ++ (po ++ m) := by
            rw [List.drop_append_eq_append_drop, Nat.sub_eq_zero_of_le (le_of_lt hcc),
              List.drop_zero]
          rw [hdrop3] at hq'
          exact hpmq (List.IsInfix.trans (suf_to_inf (List.suffix_append _ _))
            (pre_to_inf hq'))
        · push_neg at hcc
          have hdrop3 : (c ++ (po ++ m)).drop (k - p.length - co.length)
              = (po ++ m).drop (k - p.length - co.length - c.length) := by
            rw [List.drop_append_eq_append_drop, List.drop_eq_nil_of_le hcc,
              List.nil_append]
          rw [hdrop3] at hq'
          by_cases hpo : k - p.length - co.length - c.length < po.length
          · have hdrop4 : (po ++ m).drop (k - p.length - co.length - c.length)
                = po.drop (k - p.length - co.length - c.length) ++ m := by
              rw [List.drop_append_eq_append_drop,
                Nat.sub_eq_zero_of_le (le_of_lt hpo), List.drop_zero]
            rw [hdrop4] at hq'
            exact hpoq _ hpo hq'
          · push_neg at hpo
            have hdrop4 : (po ++ m).drop (k - p.length - co.length - c.length)
                = m.drop (k - p.length - co.length - c.length - po.length) := by
              rw [List.drop_append_eq_append_drop, List.drop_eq_nil_of_le hpo,
                List.nil_append]
            rw [hdrop4] at hq'
            have hk4 : k - p.length - co.length - c.length - po.length < m.length := by
              omega
            exact hmq _ hk4 hq'

/-- Conversely, an occurrence of `tag ++ attributes` cannot match inside a
pass pattern `q`: it is longer than `q`, and a suffix of it matching a
prefix of `q` would force the tag to occur inside `q`. -/
theorem cma_attr_into_tag (q p c m co po : List Char)
    (hlen : q.length < p.length + co.length + po.length + m.length)
    (hd1 : ∀ k, k < q.length → ¬ (q.drop k) <+: p)
    (hd2 : ¬ p <:+: q) :
    CantMatchWithin (p ++ (co ++ (c ++ (po ++ m)))) q := by
  intro k hk
  constructor
  · intro hq'
    have hle := List.IsPrefix.length_le hq'
    simp only [List.length_append, List.length_drop] at hle
    omega
  · intro hq'
    by_cases hl : (q.drop k).length ≤ p.length
    · exact hd1 k hk (pre_of_append_left hq' hl)
    · push_neg at hl
      have hppre : p <+: q.drop k :=
        List.prefix_of_prefix_length_le (List.prefix_append _ _) hq' (le_of_lt hl)
      exact hd2 (infix_of_prefix_drop hppre)

/-- The two `CantMatchWithin` facts needed to carry a patched
`tag ++ attributes` occurrence through a later pass follow from the
decidable pair conditions plus brace-freeness of the color value. -/
theorem cma_of_pair_ok (nj ni mi ci : String) (hbc : '\x7b' ∉ ci.data)
    (h : TagPairOk nj ni mi) :
    CantMatchWithin (nvTag nj) (nvTag ni ++ nvAttr ci mi)
    ∧ CantMatchWithin (nvTag ni ++ nvAttr ci mi) (nvTag nj) := by
  obtain ⟨c1, c2, l1, b1, b2, b3, b4, b5, b6, l2, d1, d2⟩ := h
  constructor
  · have := cma_tag_into_attr (nvTag nj) (nvTag ni) ci.data mi.data
      " color=".data " point=".data l1
      (fun k hk => (c1 k hk).1) (fun k hk => (c1 k hk).2)
      b1 (by decide) (by decide) hbc b2 b3 b4 b5 b6
    simpa [nvAttr] using this
  · have := cma_attr_into_tag (nvTag nj) (nvTag ni) ci.data mi.data
      " color=".data " point=".data (by omega) d1 d2
    simpa [nvAttr] using this

/-! ## The style-patch loop -/

theorem patchStep_eq (t : List Char) (g : String × String × String) :
    patchStep t g = pyReplace (nvTag g.1) (nvTag g.1 ++ nvAttr g.2.1 g.2.2) t := by
  unfold patchStep nvTag nvAttr tagText
  simp only [String.data_append, List.append_assoc]

theorem patchRegionText_eq_specPatch (styles : List (String × String × String)) :
    ∀ t, patchRegionText styles t = specPatch styles t := by
  induction styles with
  | nil => intro t; rfl
  | cons g gs ih =>
    intro t
    show patchRegionText gs (patchStep t g)
        = specPatch gs (appendAfterTags (nvTag g.1) (nvAttr g.2.1 g.2.2) t)
    rw [ih, patchStep_eq, pyReplace_eq_appendAfterTags]

theorem sublist_patchRegionText (styles : List (String × String × String)) :
    ∀ t, List.Sublist t (patchRegionText styles t) := by
  induction styles with
  | nil => intro t; exact List.Sublist.refl t
  | cons g gs ih =>
    intro t
    show List.Sublist t (patchRegionText gs (patchStep t g))
    have hstep : List.Sublist t (patchStep t g) := by
      rw [patchStep_eq]
      exact sublist_pyReplace _ _ t.length t le_rfl
    exact List.Sublist.trans hstep (ih (patchStep t g))

theorem patchRegionText_no_tags (styles : List (String × String × String)) :
    ∀ t, (∀ g ∈ styles, ¬ nvTag g.1 <:+: t) → patchRegionText styles t = t := by
  induction styles with
  | nil => intro t _; rfl
  | cons g gs ih =>
    intro t h
    show patchRegionText gs (patchStep t g) = t
    have hstep : patchStep t g = t := by
      rw [patchStep_eq]
      exact pyReplace_no_occurrence _ _ t (h g (by simp))
    rw [hstep]
    exact ih t (fun g' hg' => h g' (by simp [hg']))

/-- Preservation of a tag occurrence through a pass for a different tag. -/
theorem preserve_tag_pass (ni nj cj mj : String) (t : List Char)
    (hcmw1 : CantMatchWithin (nvTag nj) (nvTag ni))
    (hcmw2 : CantMatchWithin (nvTag ni) (nvTag nj))
    (hj : nvTag nj ≠ [])
    (ht : nvTag ni <:+: t) :
    nvTag ni <:+: patchStep t (nj, cj, mj) := by
  rw [patchStep_eq]
  exact infix_preserved _ _ _ hj hcmw1 hcmw2 t.length t le_rfl ht

/-- Preservation of an already patched `tag ++ attributes` occurrence
through a later pass for a different tag. -/
theorem preserve_attr_pass (ni ci mi nj cj mj : String) (t : List Char)
    (hA : CantMatchWithin (nvTag nj) (nvTag ni ++ nvAttr ci mi))
    (hB : CantMatchWithin (nvTag ni ++ nvAttr ci mi) (nvTag nj))
    (hj : nvTag nj ≠ [])
    (ht : (nvTag ni ++ nvAttr ci mi) <:+: t) :
    (nvTag ni ++ nvAttr ci mi) <:+: patchStep t (nj, cj, mj) := by
  rw [patchStep_eq]
  exact infix_preserved _ _ _ hj hA hB t.length t le_rfl ht

/-- The pass for a group's own tag turns each tag occurrence into an
occurrence of the tag immediately followed by its attributes. -/
theorem estab_pass (ni ci mi : String) (t : List Char) (hni : nvTag ni ≠ [])
    (ht : nvTag ni <:+: t) :
    (nvTag ni ++ nvAttr ci mi) <:+: patchStep t (ni, ci, mi) := by
  rw [patchStep_eq]
  exact estab_attr _ _ hni t.length t le_rfl ht

set_option maxRecDepth 20000

/-- C3: for every region collection serialized to DS9 text and every
configured named group, the style-patch step rewrites the text by finding
each occurrence of that group's tag label and appending the attributes
`color=<value> point=<shape>` immediately after it (the replace loop equals
the spec-side append-after-tags scan), so that in the patched output every
region tagged with a configured group name carries that group's color and
point-marker attributes (if the group's tag occurs in the serialized text,
then the tag immediately followed by its attributes occurs in the patched
output).  The color values, which come from the widget controls, are
assumed not to contain a brace character. -/
theorem c3_style_patch (cns ncs ncl cpr cfl : String) (t : List Char)
    (h1 : '\x7b' ∉ cns.data) (h2 : '\x7b' ∉ ncs.data) (h3 : '\x7b' ∉ ncl.data)
    (h4 : '\x7b' ∉ cpr.data) (h5 : '\x7b' ∉ cfl.data) :
    patchRegionText (novtStyles cns ncs ncl cpr cfl) t
        = specPatch (novtStyles cns ncs ncl cpr cfl) t
    ∧ ∀ g ∈ novtStyles cns ncs ncl cpr cfl,
        nvTag g.1 <:+: t →
        (nvTag g.1 ++ nvAttr g.2.1 g.2.2) <:+:
          patchRegionText (novtStyles cns ncs ncl cpr cfl) t := by
  refine ⟨patchRegionText_eq_specPatch _ t, ?_⟩
  intro g hg ht
  have hfold : patchRegionText (novtStyles cns ncs ncl cpr cfl) t
      = patchStep (patchStep (patchStep (patchStep (patchStep t
          ("NIRSpec", cns, "cross")) ("NIRCam Short", ncs, "cross"))
          ("NIRCam Long", ncl, "cross")) ("primary", cpr, "circle"))
          ("filler", cfl, "circle") := rfl
  rw [hfold]
  simp only [novtStyles, List.mem_cons, List.not_mem_nil, or_false] at hg
  rcases hg with rfl | rfl | rfl | rfl | rfl
  · -- NIRSpec: establish in pass 1, preserve through passes 2-5
    have e1 := estab_pass "NIRSpec" cns "cross" t (by decide) ht
    have hc2 := cma_of_pair_ok "NIRCam Short" "NIRSpec" "cross" cns h1 (by decide)
    have e2 := preserve_attr_pass "NIRSpec" cns "cross" "NIRCam Short" ncs "cross"
      _ hc2.1 hc2.2 (by decide) e1
    have hc3 := cma_of_pair_ok "NIRCam Long" "NIRSpec" "cross" cns h1 (by decide)
    have e3 := preserve_attr_pass "NIRSpec" cns "cross" "NIRCam Long" ncl "cross"
      _ hc3.1 hc3.2 (by decide) e2
    have hc4 := cma_of_pair_ok "primary" "NIRSpec" "cross" cns h1 (by decide)
    have e4 := preserve_attr_pass "NIRSpec" cns "cross" "primary" cpr "circle"
      _ hc4.1 hc4.2 (by decide) e3
    have hc5 := cma_of_pair_ok "filler" "NIRSpec" "cross" cns h1 (by decide)
    exact preserve_attr_pass "NIRSpec" cns "cross" "filler" cfl "circle"
      _ hc5.1 hc5.2 (by decide) e4
  · -- NIRCam Short: preserve tag through pass 1, establish in pass 2
    have t1 := preserve_tag_pass "NIRCam Short" "NIRSpec" cns "cross" t
      (by decide) (by decide) (by decide) ht
    have e2 := estab_pass "NIRCam Short" ncs "cross" _ (by decide) t1
    have hc3 := cma_of_pair_ok "NIRCam Long" "NIRCam Short" "cross" ncs h2 (by decide)
    have e3 := preserve_attr_pass "NIRCam Short" ncs "cross" "NIRCam Long" ncl "cross"
      _ hc3.1 hc3.2 (by decide) e2
    have hc4 := cma_of_pair_ok "primary" "NIRCam Short" "cross" ncs h2 (by decide)
    have e4 := preserve_attr_pass "NIRCam Short" ncs "cross" "primary" cpr "circle"
      _ hc4.1 hc4.2 (by decide) e3
    have hc5 := cma_of_pair_ok "filler" "NIRCam Short" "cross" ncs h2 (by decide)
    exact preserve_attr_pass "NIRCam Short" ncs "cross" "filler" cfl "circle"
      _ hc5.1 hc5.2 (by decide) e4
  · -- NIRCam Long
    have t1 := preserve_tag_pass "NIRCam Long" "NIRSpec" cns "cross" t
      (by decide) (by decide) (by decide) ht
    have t2 := preserve_tag_pass "NIRCam Long" "NIRCam Short" ncs "cross" _
      (by decide) (by decide) (by decide) t1
    have e3 := estab_pass "NIRCam Long" ncl "cross" _ (by decide) t2
    have hc4 := cma_of_pair_ok "primary" "NIRCam Long" "cross" ncl h3 (by decide)
    have e4 := preserve_attr_pass "NIRCam Long" ncl "cross" "primary" cpr "circle"
      _ hc4.1 hc4.2 (by decide) e3
    have hc5 := cma_of_pair_ok "filler" "NIRCam Long" "cross" ncl h3 (by decide)
    exact preserve_attr_pass "NIRCam Long" ncl "cross" "filler" cfl "circle"
      _ hc5.1 hc5.2 (by decide) e4
  · -- primary
    have t1 := preserve_tag_pass "primary" "NIRSpec" cns "cross" t
      (by decide) (by decide) (by decide) ht
    have t2 := preserve_tag_pass "primary" "NIRCam Short" ncs "cross" _
      (by decide) (by decide) (by decide) t1
    have t3 := preserve_tag_pass "primary" "NIRCam Long" ncl "cross" _
      (by decide) (by decide) (by decide) t2
    have e4 := estab_pass "primary" cpr "circle" _ (by decide) t3
    have hc5 := cma_of_pair_ok "filler" "primary" "circle" cpr h4 (by decide)
    exact preserve_attr_pass "primary" cpr "circle" "filler" cfl "circle"
      _ hc5.1 hc5.2 (by decide) e4
  · -- filler
    have t1 := preserve_tag_pass "filler" "NIRSpec" cns "cross" t
      (by decide) (by decide) (by decide) ht
    have t2 := preserve_tag_pass "filler" "NIRCam Short" ncs "cross" _
      (by decide) (by decide) (by decide) t1
    have t3 := preserve_tag_pass "filler" "NIRCam Long" ncl "cross" _
      (by decide) (by decide) (by decide) t2
    have t4 := preserve_tag_pass "filler" "primary" cpr "circle" _
      (by decide) (by decide) (by decide) t3
    exact estab_pass "filler" cfl "circle" _ (by decide) t4

theorem c3_style_patch_witness :
    '\x7b' ∉ "red".data ∧
    (patchRegionText (novtStyles "red" "blue" "green" "yellow" "magenta")
        (nvTag "NIRSpec")
        = specPatch (novtStyles "red" "blue" "green" "yellow" "magenta")
          (nvTag "NIRSpec")
      ∧ ∀ g ∈ novtStyles "red" "blue" "green" "yellow" "magenta",
          nvTag g.1 <:+: nvTag "NIRSpec" →
          (nvTag g.1 ++ nvAttr g.2.1 g.2.2) <:+:
            patchRegionText (novtStyles "red" "blue" "green" "yellow" "magenta")
              (nvTag "NIRSpec")) :=
  ⟨by decide,
   c3_style_patch "red" "blue" "green" "yellow" "magenta" (nvTag "NIRSpec")
     (by decide) (by decide) (by decide) (by decide) (by decide)⟩

/-- C10: the style-patch step only inserts text, it never deletes or alters
a character of the serialized region text: the input is a sublist of the
output (every original character survives unchanged, in order), and a text
in which no configured group tag occurs is returned byte-for-byte
identical. -/
theorem c10_patch_frame (cns ncs ncl cpr cfl : String) (t : List Char) :
    List.Sublist t (patchRegionText (novtStyles cns ncs ncl cpr cfl) t)
    ∧ ((∀ g ∈ novtStyles cns ncs ncl cpr cfl, ¬ nvTag g.1 <:+: t) →
        patchRegionText (novtStyles cns ncs ncl cpr cfl) t = t) :=
  ⟨sublist_patchRegionText _ t, fun h => patchRegionText_no_tags _ t h⟩

theorem c10_patch_frame_witness :
    patchRegionText (novtStyles "red" "blue" "green" "yellow" "magenta")
        "hello, world".data = "hello, world".data
    ∧ List.Sublist "hello, world".data
        (patchRegionText (novtStyles "red" "blue" "green" "yellow" "magenta")
          "hello, world".data) :=
  ⟨(c10_patch_frame "red" "blue" "green" "yellow" "magenta" "hello, world".data).2
      (by decide),
   (c10_patch_frame "red" "blue" "green" "yellow" "magenta" "hello, world".data).1⟩

/-! ## Claim C8: serialization order -/

theorem splitOnNl_append_line (l rest : List Char) (hl : '\n' ∉ l) :
    splitOnNl (l ++ '\n' :: rest) = l :: splitOnNl rest := by
  induction l with
  | nil => simp [splitOnNl]
  | cons c l' ih =>
    simp only [List.mem_cons, not_or] at hl
    have hc : ¬ c = '\n' := fun h => hl.1 h.symm
    show splitOnNl (c :: (l' ++ '\n' :: rest)) = _
    simp only [splitOnNl, if_neg hc, ih hl.2, List.headD, List.tail]

theorem splitOnNl_joinLines (ls : List (List Char))
    (h : ∀ l ∈ ls, '\n' ∉ l) :
    splitOnNl (joinLines ls) = ls ++ [[]] := by
  induction ls with
  | nil => rfl
  | cons l ls ih =>
    show splitOnNl (l ++ '\n' :: joinLines ls) = _
    rw [splitOnNl_append_line _ _ (h l (by simp)),
      ih (fun x hx => h x (by simp [hx]))]
    rfl

/-- C8: a region collection is an ordered sequence, and serializing it to
region-file text writes the regions in collection order: the output splits
at newlines into the header lines followed by exactly the rendered regions
in order (plus the empty segment left by the final newline), so the i-th
region entry of the output corresponds to the i-th region of the
collection. -/
theorem c8_serialize_order (rs : List Ds9Region)
    (h : ∀ r ∈ rs, '\n' ∉ renderRegion r) :
    splitOnNl (serializeRegions rs)
        = (ds9HeaderLines ++ rs.map renderRegion) ++ [[]]
    ∧ ∀ i, (hi : i < rs.length) →
        (splitOnNl (serializeRegions rs))[ds9HeaderLines.length + i]?
          = some (renderRegion rs[i]) := by
  have hall : ∀ l ∈ ds9HeaderLines ++ rs.map renderRegion, '\n' ∉ l := by
    intro l hl
    rcases List.mem_append.mp hl with h1 | h2
    · simp only [ds9HeaderLines, List.mem_cons, List.not_mem_nil, or_false] at h1
      rcases h1 with rfl | rfl
      · decide
      · decide
    · obtain ⟨r, hr, rfl⟩ := List.mem_map.mp h2
      exact h r hr
  have heq : splitOnNl (serializeRegions rs)
      = (ds9HeaderLines ++ rs.map renderRegion) ++ [[]] :=
    splitOnNl_joinLines _ hall
  refine ⟨heq, ?_⟩
  intro i hi
  rw [heq, List.append_assoc,
    List.getElem?_append_right (by omega : ds9HeaderLines.length ≤ ds9HeaderLines.length + i)]
  have hstep : ds9HeaderLines.length + i - ds9HeaderLines.length = i := by omega
  rw [hstep, List.getElem?_append, if_pos (by simpa using hi), List.getElem?_map,
    List.getElem?_eq_getElem hi]
  rfl

theorem c8_serialize_order_witness :
    (splitOnNl (serializeRegions
        [⟨"polygon", "1,2,3,4,5,6", "NIRSpec"⟩,
         ⟨"point", "7,8", "primary"⟩]))[ds9HeaderLines.length + 1]?
      = some (renderRegion (⟨"point", "7,8", "primary"⟩ : Ds9Region)) := by
  have := (c8_serialize_order
      [⟨"polygon", "1,2,3,4,5,6", "NIRSpec"⟩, ⟨"point", "7,8", "primary"⟩]
      (by decide)).2 1 (by decide)
  exact this

/-! ## Claim C4: catalog reader splits rows by flag -/

/-- C4: the source-catalog reader partitions the rows by flag: every row
flagged P yields a point region carrying its RA/Dec in the primary
collection, every row flagged F one in the filler collection, and the two
collections contain nothing else. -/
theorem c4_source_catalog (rows : List CatalogRow) :
    (∀ r ∈ rows,
        (r.flag = some SrcFlag.P →
          FpRegion.point (r.ra, r.dec) ∈ (source_catalog rows).1)
      ∧ (r.flag = some SrcFlag.F →
          FpRegion.point (r.ra, r.dec) ∈ (source_catalog rows).2))
    ∧ (∀ x ∈ (source_catalog rows).1, ∃ r ∈ rows,
          r.flag = some SrcFlag.P ∧ x = FpRegion.point (r.ra, r.dec))
    ∧ (∀ x ∈ (source_catalog rows).2, ∃ r ∈ rows,
          r.flag = some SrcFlag.F ∧ x = FpRegion.point (r.ra, r.dec)) := by
  refine ⟨?_, ?_, ?_⟩
  · intro r hr
    constructor
    · intro hf
      exact List.mem_map.mpr
        ⟨r, List.mem_filter.mpr ⟨hr, by simp [hf]⟩, rfl⟩
    · intro hf
      exact List.mem_map.mpr
        ⟨r, List.mem_filter.mpr ⟨hr, by simp [hf]⟩, rfl⟩
  · intro x hx
    obtain ⟨r, hr, rfl⟩ := List.mem_map.mp hx
    have hm := List.mem_filter.mp hr
    exact ⟨r, hm.1, by simpa using hm.2, rfl⟩
  · intro x hx
    obtain ⟨r, hr, rfl⟩ := List.mem_map.mp hx
    have hm := List.mem_filter.mp hr
    exact ⟨r, hm.1, by simpa using hm.2, rfl⟩

theorem c4_source_catalog_witness :
    FpRegion.point (1, 2) ∈ (source_catalog
      [⟨1, 2, some SrcFlag.P⟩, ⟨3, 4, some SrcFlag.F⟩, ⟨5, 6, none⟩]).1
    ∧ FpRegion.point (3, 4) ∈ (source_catalog
      [⟨1, 2, some SrcFlag.P⟩, ⟨3, 4, some SrcFlag.F⟩, ⟨5, 6, none⟩]).2 :=
  ⟨((c4_source_catalog
      [⟨1, 2, some SrcFlag.P⟩, ⟨3, 4, some SrcFlag.F⟩, ⟨5, 6, none⟩]).1
      ⟨1, 2, some SrcFlag.P⟩ (by simp)).1 rfl,
   ((c4_source_catalog
      [⟨1, 2, some SrcFlag.P⟩, ⟨3, 4, some SrcFlag.F⟩, ⟨5, 6, none⟩]).1
      ⟨3, 4, some SrcFlag.F⟩ (by simp)).2 rfl⟩

/-! ## Claim C1: timeline rows and NaN semantics -/

/-- C1: the timeline operation returns a time-indexed table whose rows are
exactly the dates of the requested range, each row carrying a timestamp and
the min/max position-angle columns per instrument, and every angle column
of a row is NaN (modelled as `none`) exactly when the target is not
observable on that row's date. -/
theorem c1_timeline (eph : Nat → Option PAInfo) (startDay nDays : Nat) :
    ((timeline eph startDay nDays).map (fun row => row.time)
        = (List.range nDays).map (fun d => startDay + d))
    ∧ ∀ row ∈ timeline eph startDay nDays,
        (row.v3pa = none ↔ eph row.time = none)
        ∧ (row.nirspec_min_pa = none ↔ eph row.time = none)
        ∧ (row.nirspec_max_pa = none ↔ eph row.time = none)
        ∧ (row.nircam_min_pa = none ↔ eph row.time = none)
        ∧ (row.nircam_max_pa = none ↔ eph row.time = none) := by
  constructor
  · unfold timeline
    rw [List.map_map]
    apply List.map_congr_left
    intro d _
    simp only [Function.comp_apply]
    cases eph (startDay + d) <;> rfl
  · intro row hrow
    unfold timeline at hrow
    obtain ⟨d, _, rfl⟩ := List.mem_map.mp hrow
    cases heph : eph (startDay + d) <;> simp [heph]

theorem c1_timeline_witness :
    (⟨1, some 10, some 1, some 2, some 3, some 4⟩ : TimelineRow)
        ∈ timeline (fun d => if d = 1 then some ⟨10, 1, 2, 3, 4⟩ else none) 0 2
    ∧ ((⟨1, some 10, some 1, some 2, some 3, some 4⟩ : TimelineRow).v3pa = none
        ↔ (fun d => if d = 1 then some (⟨10, 1, 2, 3, 4⟩ : PAInfo) else none)
            (⟨1, some 10, some 1, some 2, some 3, some 4⟩ : TimelineRow).time
          = none) := by
  have hmem : (⟨1, some 10, some 1, some 2, some 3, some 4⟩ : TimelineRow)
      ∈ timeline (fun d => if d = 1 then some ⟨10, 1, 2, 3, 4⟩ else none) 0 2 := by
    decide
  exact ⟨hmem,
    ((c1_timeline (fun d => if d = 1 then some ⟨10, 1, 2, 3, 4⟩ else none) 0 2).2
      _ hmem).1⟩

/-! ## Claims C2, C9, C5: footprint region counts and vertices -/

theorem sum_map_const_nat {α : Type} (l : List α) (c : Nat) :
    (l.map (fun _ => c)).sum = l.length * c := by
  induction l with
  | nil => simp
  | cons x xs ih => simp [ih, Nat.succ_mul, Nat.add_comm]

/-- C2: with no dither pattern, no mosaic, and the aperture-center point
excluded, the footprint functions return exactly one polygon region per
requested aperture. -/
theorem c2_footprint_counts (rot : ℚ → ℚ × ℚ → ℚ × ℚ)
    (siaf : String → List (ℚ × ℚ)) (ra dec pa : ℚ) (apertures : List String)
    (hne : apertures ≠ []) :
    (nirspec_footprint rot siaf ra dec pa false apertures).length
        = apertures.length
    ∧ (nircam_dither_footprint rot siaf ra dec pa false apertures
          [(0, 0)] false (0, 0)).length = apertures.length := by
  constructor
  · simp [nirspec_footprint]
  · simp [nircam_dither_footprint]

theorem c2_footprint_counts_witness :
    (["NRS_FULL_MSA1", "NRS_FULL_MSA2"] : List String) ≠ []
    ∧ (nirspec_footprint (fun _ v => v) (fun _ => [(0, 0), (1, 0), (1, 1)])
        202 47 30 false ["NRS_FULL_MSA1", "NRS_FULL_MSA2"]).length = 2 := by
  refine ⟨by decide, ?_⟩
  have := (c2_footprint_counts (fun _ v => v) (fun _ => [(0, 0), (1, 0), (1, 1)])
      202 47 30 ["NRS_FULL_MSA1", "NRS_FULL_MSA2"] (by decide)).1
  simpa using this

/-- C9: the number of NIRCam dither-footprint regions scales
multiplicatively: a k-point dither pattern alone yields `k * N` regions for
`N` apertures, the two-tile mosaic alone yields `2 * N`, and both together
yield `2 * k * N` (center points excluded). -/
theorem c9_dither_counts (rot : ℚ → ℚ × ℚ → ℚ × ℚ)
    (siaf : String → List (ℚ × ℚ)) (ra dec pa : ℚ) (apertures : List String)
    (dithers : List (ℚ × ℚ)) (mosaic_offset : ℚ × ℚ) :
    (nircam_dither_footprint rot siaf ra dec pa false apertures dithers
        false mosaic_offset).length = dithers.length * apertures.length
    ∧ (nircam_dither_footprint rot siaf ra dec pa false apertures [(0, 0)]
        true mosaic_offset).length = 2 * apertures.length
    ∧ (nircam_dither_footprint rot siaf ra dec pa false apertures dithers
        true mosaic_offset).length = 2 * (dithers.length * apertures.length) := by
  have hinner : ∀ (ts : List (ℚ × ℚ)),
      (ts.flatMap fun toff =>
        dithers.flatMap fun doff =>
          apertures.map fun ap =>
            FpRegion.poly ((siaf ap).map
              (transformVertex rot ra dec pa
                (toff.1 + doff.1, toff.2 + doff.2)))).length
      = ts.length * (dithers.length * apertures.length) := by
    intro ts
    rw [List.length_flatMap]
    have h1 : ∀ toff : ℚ × ℚ,
        (dithers.flatMap fun doff =>
          apertures.map fun ap =>
            FpRegion.poly ((siaf ap).map
              (transformVertex rot ra dec pa
                (toff.1 + doff.1, toff.2 + doff.2)))).length
        = dithers.length * apertures.length := by
      intro toff
      rw [List.length_flatMap]
      have h2 : (dithers.map (List.length ∘ fun doff =>
          apertures.map fun ap =>
            FpRegion.poly ((siaf ap).map
              (transformVertex rot ra dec pa
                (toff.1 + doff.1, toff.2 + doff.2)))))
          = dithers.map (fun _ => apertures.length) := by
        apply List.map_congr_left
        intro d _
        simp
      rw [h2, sum_map_const_nat]
    have h3 : (ts.map (List.length ∘ fun toff =>
        dithers.flatMap fun doff =>
          apertures.map fun ap =>
            FpRegion.poly ((siaf ap).map
              (transformVertex rot ra dec pa
                (toff.1 + doff.1, toff.2 + doff.2)))))
        = ts.map (fun _ => dithers.length * apertures.length) := by
      apply List.map_congr_left
      intro toff _
      simpa using h1 toff
    rw [h3, sum_map_const_nat]
  refine ⟨?_, ?_, ?_⟩
  · have := hinner [((0 : ℚ), (0 : ℚ))]
    simpa [nircam_dither_footprint] using this
  · have := hinner [(mosaic_offset.1, mosaic_offset.2),
      (-mosaic_offset.1, -mosaic_offset.2)]
    simp [nircam_dither_footprint] at this ⊢
    omega
  · have := hinner [(mosaic_offset.1, mosaic_offset.2),
      (-mosaic_offset.1, -mosaic_offset.2)]
    simp [nircam_dither_footprint] at this ⊢
    omega

/-- C5: the footprint builder returns sky-polygon regions whose vertices
are exactly the aperture-geometry library's polygon vertices for the named
apertures transformed by the rotation through the position angle and placed
at the target position, with the per-aperture dither offsets applied when a
dither pattern is requested. -/
theorem c5_footprint_vertices (rot : ℚ → ℚ × ℚ → ℚ × ℚ)
    (siaf : String → List (ℚ × ℚ)) (ra dec pa : ℚ) (apertures : List String)
    (dithers : List (ℚ × ℚ)) :
    (∀ i, (hi : i < apertures.length) →
        (nirspec_footprint rot siaf ra dec pa false apertures)[i]?
          = some (FpRegion.poly ((siaf apertures[i]).map
              (transformVertex rot ra dec pa (0, 0)))))
    ∧ ∀ doff ∈ dithers, ∀ ap ∈ apertures,
        FpRegion.poly ((siaf ap).map
            (transformVertex rot ra dec pa (doff.1, doff.2)))
          ∈ nircam_dither_footprint rot siaf ra dec pa false apertures dithers
              false (0, 0) := by
  constructor
  · intro i hi
    simp [nirspec_footprint, List.getElem?_map, List.getElem?_eq_getElem hi]
  · intro doff hd ap hap
    simp only [nircam_dither_footprint, Bool.false_eq_true, if_false,
      List.nil_append, List.mem_flatMap, List.mem_map]
    refine ⟨(0, 0), by simp, doff, hd, ap, hap, ?_⟩
    simp

theorem c5_footprint_vertices_witness :
    (0 : Nat) < (["NRS_FULL_MSA1"] : List String).length
    ∧ (nirspec_footprint (fun _ v => v) (fun _ => [(1, 2), (3, 4)]) 5 6 7 false
        ["NRS_FULL_MSA1"])[0]?
      = some (FpRegion.poly ([(1, 2), (3, 4)].map
          (transformVertex (fun _ v => v) 5 6 7 (0, 0)))) := by
  refine ⟨by decide, ?_⟩
  have := (c5_footprint_vertices (fun _ v => v) (fun _ => [(1, 2), (3, 4)]) 5 6 7
      ["NRS_FULL_MSA1"] [(1, 1)]).1 0 (by decide)
  simpa using this

/-- C7: errors raised by the wrapped libraries (failed ephemeris fetch,
malformed catalog rows, invalid aperture names) propagate unchanged through
the timeline, catalog-reading and footprint operations: the glue code
performs no recovery, retry or validation of its own, so the library error
is returned as is. -/
theorem c7_error_propagation (e : String)
    (fetch : Except String (Nat → Option PAInfo)) (startDay nDays : Nat)
    (parse : String → Except String CatalogRow) (rows : List String)
    (rot : ℚ → ℚ × ℚ → ℚ × ℚ) (siaf : String → Except String (List (ℚ × ℚ)))
    (ra dec pa : ℚ) (include_center : Bool) (apertures : List String) :
    (fetch = .error e → timelineE fetch startDay nDays = .error e)
    ∧ (rows.mapM parse = .error e → source_catalogE parse rows = .error e)
    ∧ (apertures.mapM siaf = .error e →
        nirspec_footprintE rot siaf ra dec pa include_center apertures
          = .error e) := by
  refine ⟨?_, ?_, ?_⟩
  · intro h
    unfold timelineE
    rw [h]
    rfl
  · intro h
    unfold source_catalogE
    rw [h]
    rfl
  · intro h
    unfold nirspec_footprintE
    rw [h]
    rfl

theorem c7_error_propagation_witness :
    timelineE (.error "no ephemeris") 0 3 = .error "no ephemeris"
    ∧ source_catalogE (fun _ => .error "malformed row") ["bad line"]
        = .error "malformed row"
    ∧ nirspec_footprintE (fun _ v => v) (fun _ => .error "invalid aperture")
        1 2 3 false ["NRS_BAD"] = .error "invalid aperture" := by
  refine ⟨?_, ?_, ?_⟩
  · exact (c7_error_propagation "no ephemeris" (.error "no ephemeris") 0 3
      (fun _ => .error "x") [] (fun _ v => v) (fun _ => .error "y")
      0 0 0 false []).1 rfl
  · exact (c7_error_propagation "malformed row" (.error "z") 0 0
      (fun _ => .error "malformed row") ["bad line"] (fun _ v => v)
      (fun _ => .error "y") 0 0 0 false []).2.1 (by rfl)
  · exact (c7_error_propagation "invalid aperture" (.error "z") 0 0
      (fun _ => .error "w") [] (fun _ v => v)
      (fun _ => .error "invalid aperture") 1 2 3 false ["NRS_BAD"]).2.2 (by rfl)

/-- C6: the position angle produced by the notebook's wrap of the circular
mean, `(x + 360) % 360`, lies in the half-open interval `[0, 360)` and
differs from the input angle by an integer multiple of 360 degrees: every
angle value at this interface has an equivalent representative in
`[0, 360)`. -/
theorem c6_angle_mod_360 (x : ℚ) :
    0 ≤ nircam_avg_pa x ∧ nircam_avg_pa x < 360
    ∧ ∃ k : ℤ, x - nircam_avg_pa x = 360 * k := by
  have hfr : nircam_avg_pa x = 360 * Int.fract ((x + 360) / 360) := by
    rw [← Int.self_sub_floor]
    unfold nircam_avg_pa pymod
    ring
  refine ⟨?_, ?_, ⟨⌊(x + 360) / 360⌋ - 1, ?_⟩⟩
  · rw [hfr]
    exact mul_nonneg (by norm_num) (Int.fract_nonneg _)
  · rw [hfr]
    have h1 := Int.fract_lt_one ((x + 360) / 360)
    nlinarith
  · unfold nircam_avg_pa pymod
    push_cast
    ring
